import Mathlib

/-!
Shallow embedding of the scoring and filtering pipeline of the
woodworkers-community-engine repository (src/community_engine), covering
the keyword matcher (`scorer.py`, `KeywordMatcher`), the post scorer
(`PostScorer`), the post filters (`PostFilter`), the orchestrating
pipeline (`ScoringEngine.process_posts`) and the keyword read of the
database layer (`database.py`, `DatabaseManager.get_keywords`).

Conventions of the embedding:
- Python `datetime` values are modelled as whole seconds (`Int`).
  `int(x)` truncation toward zero on a ratio of integers is `Int.tdiv`;
  Python floor division `//` is `Int.fdiv`.
- Python's regex word class `\w` is modelled over ASCII as
  alphanumeric-or-underscore, and `str.lower` as character-wise
  `Char.toLower`; this matches the source behaviour on ASCII text.
- The sqlite read of `get_keywords` either yields the stored rows
  (ordered by the `ORDER BY` clause of the query) or raises
  `sqlite3.Error`; the raised/returned distinction is modelled by a
  Boolean `ok` flag on the read.
- Python's stable list sort (`list.sort(key=..., reverse=True)`) is
  modelled by `List.insertionSort`, which is stable with the descending
  comparison used here.
-/

/-- Word character test for the regex word boundary `\b` of
`KeywordMatcher.find_matches` (ASCII fragment of Python `\w`). -/
def isWordChar (c : Char) : Bool := c.isAlphanum || c = '_'

/-- A keyword row `(keyword, category, score_value)` as returned by
`DatabaseManager.get_keywords`. -/
structure Keyword where
  text : String
  category : String
  weight : Int
deriving DecidableEq, Repr

/-- Platform enumeration of `models.py`. -/
inductive Platform where
  | reddit
  | lumberjocks
  | sawmillcreek
  | facebook
deriving DecidableEq, Repr

/-- The `.value` string of the `Platform` enum. -/
def Platform.value : Platform → String
  | .reddit => "reddit"
  | .lumberjocks => "lumberjocks"
  | .sawmillcreek => "sawmillcreek"
  | .facebook => "facebook"

/-- The `Post` dataclass of `models.py`; timestamps are whole seconds. -/
structure Post where
  platform : Platform
  post_id : String
  title : String
  content : String
  author : String
  url : String
  timestamp : Int
  score : Int := 0
  keyword_matches : List String := []
  has_external_links : Bool := false
deriving DecidableEq, Repr

/-- The scoring-relevant configuration fields (`config.scoring`). -/
structure ScoringConfig where
  recent_post_bonus : Int
  external_link_penalty : Int
  max_posts_per_run : Nat
deriving DecidableEq, Repr

/-- The `ScoringResult` dataclass of `models.py`. -/
structure ScoringResult where
  post : Post
  keyword_score : Int
  time_bonus : Int
  link_penalty : Int
  final_score : Int
  matched_keywords : List String
deriving DecidableEq, Repr

/-! ### Keyword matching (`KeywordMatcher.find_matches`) -/

/-- Character of `cs` at index `i`, a non-word blank when out of range
(regex positions outside the string are non-word). -/
def wordAt (cs : List Char) (i : Nat) : Bool := isWordChar (cs.getD i ' ')

/-- Word-ness of the character just before regex position `i`. -/
def prevWordAt (cs : List Char) (i : Nat) : Bool :=
  match i with
  | 0 => false
  | j + 1 => wordAt cs j

/-- Regex `\b` holds at position `i` iff word-ness changes there. -/
def boundaryAt (cs : List Char) (i : Nat) : Bool := prevWordAt cs i != wordAt cs i

/-- The characters `kw` occur contiguously in `cs` at position `i`. -/
def occursAt (kw cs : List Char) (i : Nat) : Prop := (cs.drop i).take kw.length = kw

instance (kw cs : List Char) (i : Nat) : Decidable (occursAt kw cs i) := by
  unfold occursAt; infer_instance

/-- Semantics of `re.search(r'\b' + re.escape(kw) + r'\b', cs)`: some
position carries the literal characters with a word boundary on both
sides. -/
def wbMatch (kw cs : List Char) : Bool :=
  (List.range (cs.length + 1)).any fun i =>
    decide (occursAt kw cs i) && boundaryAt cs i && boundaryAt cs (i + kw.length)

/-- Character-wise lower-casing of `text.lower()`. -/
def toLowerList (s : String) : List Char := s.data.map Char.toLower

/-- A token-aligned whole-word occurrence of the characters `kw` in `cs`
at position `i`: the characters occur there and no word character
adjoins the occurrence on either side. -/
def tokenAlignedAt (kw cs : List Char) (i : Nat) : Prop :=
  occursAt kw cs i ∧ prevWordAt cs i = false ∧ wordAt cs (i + kw.length) = false

instance (kw cs : List Char) (i : Nat) : Decidable (tokenAlignedAt kw cs i) := by
  unfold tokenAlignedAt
  infer_instance

/-- `KeywordMatcher.find_matches`: empty text gives no matches; otherwise
each cached keyword is kept iff its word-boundary pattern is found in the
lower-cased text (one list entry per keyword, since `re.search` is used
as a Boolean test). -/
def find_matches (keywords : List Keyword) (text : String) : List Keyword :=
  if text = "" then []
  else keywords.filter fun k => wbMatch k.text.data (toLowerList text)

/-! ### Keyword scoring (`KeywordMatcher.calculate_keyword_score`) -/

/-- Boolean test that a keyword entry carries text `t`. -/
def textIs (t : String) (x : Keyword) : Bool := decide (x.text = t)

/-- Boolean test that a keyword entry does not carry text `t`. -/
def textNot (t : String) (x : Keyword) : Bool := !decide (x.text = t)

/-- Number of entries of `l` whose keyword text is `t` (the running
`keyword_counts` dictionary value). -/
def countOcc (t : String) (l : List Keyword) : Nat := l.countP (textIs t)

/-- Contribution of the next occurrence of `m.text` given the already
processed entries `seen`: full weight on the first occurrence, floor half
weight on the second, nothing afterwards. -/
def contribAt (m : Keyword) (seen : List Keyword) : Int :=
  let c := countOcc m.text seen + 1
  if c = 1 then m.weight else if c = 2 then m.weight.fdiv 2 else 0

/-- Loop of `calculate_keyword_score`; `seen` holds the entries already
processed (its per-text counts are the `keyword_counts` dictionary). -/
def calcScoreGo : List Keyword → List Keyword → Int
  | [], _ => 0
  | m :: rest, seen => contribAt m seen + calcScoreGo rest (m :: seen)

/-- `KeywordMatcher.calculate_keyword_score`. -/
def calculate_keyword_score (ms : List Keyword) : Int := calcScoreGo ms []

/-! ### Post scoring (`PostScorer`) -/

/-- First-occurrence-preserving deduplication, modelling the
`list(set(...))` collapse of exact tuples in `score_post`. -/
def dedupFirstAux {α : Type} [DecidableEq α] : List α → List α → List α
  | [], _ => []
  | a :: rest, seen =>
    if a ∈ seen then dedupFirstAux rest seen else a :: dedupFirstAux rest (a :: seen)

/-- Deduplication keeping the first occurrence of each element. -/
def dedupFirst {α : Type} [DecidableEq α] (l : List α) : List α := dedupFirstAux l []

/-- `Post.age_minutes`: `int((now - timestamp).total_seconds() / 60)`,
truncating toward zero. -/
def age_minutes (now : Int) (p : Post) : Int := (now - p.timestamp).tdiv 60

/-- `Post.is_recent`: age strictly below 60 minutes. -/
def is_recent (now : Int) (p : Post) : Bool := decide (age_minutes now p < 60)

/-- `PostScorer.score_post`. -/
def score_post (cfg : ScoringConfig) (keywords : List Keyword) (now : Int)
    (p : Post) : ScoringResult :=
  let title_matches := find_matches keywords p.title
  let content_matches := find_matches keywords p.content
  let unique_matches := dedupFirst (title_matches ++ content_matches)
  let keyword_score := calculate_keyword_score unique_matches
  let time_bonus : Int := if is_recent now p then cfg.recent_post_bonus else 0
  let link_penalty : Int := if p.has_external_links then cfg.external_link_penalty else 0
  let final_score := keyword_score + time_bonus + link_penalty
  let p2 : Post := { p with keyword_matches := unique_matches.map Keyword.text, score := final_score }
  { post := p2
    keyword_score := keyword_score
    time_bonus := time_bonus
    link_penalty := link_penalty
    final_score := final_score
    matched_keywords := unique_matches.map Keyword.text }

/-- Descending order on final scores used by `results.sort(key=...,
reverse=True)`. -/
def descRel (a b : ScoringResult) : Prop := b.final_score ≤ a.final_score

instance : DecidableRel descRel := fun _ _ => Int.decLe _ _

instance : IsTotal ScoringResult descRel := ⟨fun a b => Int.le_total b.final_score a.final_score⟩

instance : IsTrans ScoringResult descRel := ⟨fun _ _ _ hab hbc => le_trans hbc hab⟩

/-- `PostScorer.score_posts`: score each post in order, then stable-sort
by final score descending. -/
def score_posts (cfg : ScoringConfig) (keywords : List Keyword) (now : Int)
    (posts : List Post) : List ScoringResult :=
  List.insertionSort descRel (posts.map (score_post cfg keywords now))

/-! ### Filters (`PostFilter`) -/

/-- Duplicate key `(platform.value, post_id)` of `filter_duplicates`. -/
def postKey (p : Post) : String × String := (p.platform.value, p.post_id)

/-- Loop of `filter_duplicates` carrying the `seen` key set. -/
def filterDupGo : List Post → List (String × String) → List Post
  | [], _ => []
  | p :: rest, seen =>
    if postKey p ∈ seen then filterDupGo rest seen
    else p :: filterDupGo rest (postKey p :: seen)

/-- `PostFilter.filter_duplicates`: first-seen-wins dedup by key. -/
def filter_duplicates (posts : List Post) : List Post := filterDupGo posts []

/-- `PostFilter.filter_processed`; the storage lookup
`is_post_processed` is the external predicate `processed`. -/
def filter_processed (processed : String → String → Bool) (posts : List Post) : List Post :=
  posts.filter fun p => !processed p.platform.value p.post_id

/-- `PostFilter.filter_by_age`: keep posts with
`timestamp >= now - max_age_hours`. -/
def filter_by_age (now : Int) (max_age_hours : Int) (posts : List Post) : List Post :=
  posts.filter fun p => decide (now - max_age_hours * 3600 ≤ p.timestamp)

/-- `PostFilter.filter_by_score`: keep results scoring at least
`min_score`. -/
def filter_by_score (min_score : Int) (results : List ScoringResult) : List ScoringResult :=
  results.filter fun r => decide (min_score ≤ r.final_score)

/-- `PostFilter.filter_top_posts`: cap the list at
`max_posts_per_run`. -/
def filter_top_posts (cfg : ScoringConfig) (results : List ScoringResult) : List ScoringResult :=
  if results.length ≤ cfg.max_posts_per_run then results
  else results.take cfg.max_posts_per_run

/-- `ScoringEngine.process_posts` (the persistence writes of
`_save_posts_to_db` do not affect the returned list and are omitted). -/
def process_posts (cfg : ScoringConfig) (keywords : List Keyword) (now : Int)
    (processed : String → String → Bool) (posts : List Post) : List ScoringResult :=
  let f1 := filter_duplicates posts
  let f2 := filter_processed processed f1
  let f3 := filter_by_age now 24 f2
  if f3 = [] then []
  else filter_top_posts cfg (filter_by_score 1 (score_posts cfg keywords now f3))

/-! ### Keyword read of the database layer (`DatabaseManager.get_keywords`) -/

/-- Strict lexicographic comparison of character lists by code point,
the BINARY collation sqlite applies to `TEXT` columns. -/
def lexLtB : List Char → List Char → Bool
  | [], [] => false
  | [], _ :: _ => true
  | _ :: _, [] => false
  | a :: as, b :: bs =>
    if a.toNat < b.toNat then true
    else if b.toNat < a.toNat then false
    else lexLtB as bs

/-- Row order of `ORDER BY category, score_value DESC, keyword`. -/
def sqlRowLe (a b : Keyword) : Bool :=
  if lexLtB a.category.data b.category.data then true
  else if lexLtB b.category.data a.category.data then false
  else if b.weight < a.weight then true
  else if a.weight < b.weight then false
  else !lexLtB b.text.data a.text.data

/-- Row order of `ORDER BY score_value DESC, keyword` (category given). -/
def sqlRowLeCat (a b : Keyword) : Bool :=
  if b.weight < a.weight then true
  else if a.weight < b.weight then false
  else !lexLtB b.text.data a.text.data

/-- `DatabaseManager.get_keywords`: on a successful read returns the
stored rows in the order of the SQL query; on `sqlite3.Error` the
exception handler logs and returns the empty list. -/
def db_get_keywords (store : List Keyword) (ok : Bool) (category : Option String) :
    List Keyword :=
  if ok then
    match category with
    | some c =>
        List.insertionSort (fun a b => sqlRowLeCat a b = true)
          (store.filter fun k => decide (k.category = c))
    | none => List.insertionSort (fun a b => sqlRowLe a b = true) store
  else []

/-! ### Helper lemmas for the word-boundary matcher -/

theorem occursAt_getD {kw cs : List Char} {i : Nat} (h : occursAt kw cs i)
    {j : Nat} (hj : j < kw.length) : cs.getD (i + j) ' ' = kw.getD j ' ' := by
  unfold occursAt at h
  have h1 : kw.getD j ' ' = ((cs.drop i).take kw.length).getD j ' ' := by rw [h]
  rw [h1, List.getD_eq_getElem?_getD, List.getD_eq_getElem?_getD, List.getElem?_take,
    if_pos hj, List.getElem?_drop]

theorem occursAt_le {kw cs : List Char} {i : Nat} (h : occursAt kw cs i)
    (hne : kw ≠ []) : i + kw.length ≤ cs.length := by
  unfold occursAt at h
  have hlen := congrArg List.length h
  rw [List.length_take, List.length_drop] at hlen
  have hpos : 0 < kw.length := List.length_pos.mpr hne
  rcases Nat.le_total kw.length (cs.length - i) with hc | hc
  · omega
  · rw [min_eq_right hc] at hlen
    omega

theorem wordAt_of_occursAt {kw cs : List Char} {i j : Nat} (h : occursAt kw cs i)
    (hj : j < kw.length) (hw : ∀ c ∈ kw, isWordChar c = true) :
    wordAt cs (i + j) = true := by
  unfold wordAt
  rw [occursAt_getD h hj]
  apply hw
  rw [List.getD_eq_getElem kw ' ' hj]
  exact List.getElem_mem hj

theorem wbMatch_iff {kw cs : List Char} :
    wbMatch kw cs = true ↔ ∃ i, i < cs.length + 1 ∧ occursAt kw cs i ∧
      boundaryAt cs i = true ∧ boundaryAt cs (i + kw.length) = true := by
  unfold wbMatch
  rw [List.any_eq_true]
  constructor
  · rintro ⟨i, hi, hp⟩
    rw [List.mem_range] at hi
    simp only [Bool.and_eq_true, decide_eq_true_eq] at hp
    exact ⟨i, hi, hp.1.1, hp.1.2, hp.2⟩
  · rintro ⟨i, hi, h1, h2, h3⟩
    exact ⟨i, List.mem_range.mpr hi, by simp [h1, h2, h3]⟩

theorem wbMatch_of_tokenAligned {kw cs : List Char} {i : Nat}
    (hocc : tokenAlignedAt kw cs i) (hne : kw ≠ [])
    (hw : ∀ c ∈ kw, isWordChar c = true) : wbMatch kw cs = true := by
  obtain ⟨ho, hb1, hb2⟩ := hocc
  rw [wbMatch_iff]
  have hpos : 0 < kw.length := List.length_pos.mpr hne
  refine ⟨i, ?_, ho, ?_, ?_⟩
  · have := occursAt_le ho hne
    omega
  · have h0 : wordAt cs i = true := by
      have := wordAt_of_occursAt ho hpos hw
      simpa using this
    unfold boundaryAt
    rw [hb1, h0]
    rfl
  · have hl : kw.length - 1 < kw.length := by omega
    have hlast : wordAt cs (i + (kw.length - 1)) = true := wordAt_of_occursAt ho hl hw
    have hpw : prevWordAt cs (i + kw.length) = true := by
      have heq : i + kw.length = (i + (kw.length - 1)) + 1 := by omega
      rw [heq]
      exact hlast
    unfold boundaryAt
    rw [hpw, hb2]
    rfl

theorem tokenAligned_of_wbMatch {kw cs : List Char}
    (hm : wbMatch kw cs = true) (hne : kw ≠ [])
    (hw : ∀ c ∈ kw, isWordChar c = true) : ∃ i, tokenAlignedAt kw cs i := by
  rw [wbMatch_iff] at hm
  obtain ⟨i, hi, hocc, hb1, hb2⟩ := hm
  have hpos : 0 < kw.length := List.length_pos.mpr hne
  refine ⟨i, hocc, ?_, ?_⟩
  · have h0 : wordAt cs i = true := by
      have := wordAt_of_occursAt hocc hpos hw
      simpa using this
    unfold boundaryAt at hb1
    cases hpw : prevWordAt cs i
    · rfl
    · rw [hpw, h0] at hb1
      cases hb1
  · have hl : kw.length - 1 < kw.length := by omega
    have hlast : wordAt cs (i + (kw.length - 1)) = true := wordAt_of_occursAt hocc hl hw
    have hpw : prevWordAt cs (i + kw.length) = true := by
      have heq : i + kw.length = (i + (kw.length - 1)) + 1 := by omega
      rw [heq]
      exact hlast
    unfold boundaryAt at hb2
    cases hend : wordAt cs (i + kw.length)
    · rfl
    · rw [hpw, hend] at hb2
      cases hb2

/-! ### Helper lemmas for first-occurrence deduplication -/

theorem mem_dedupFirstAux {α : Type} [DecidableEq α] (a : α) (l : List α) :
    ∀ seen, a ∈ dedupFirstAux l seen ↔ a ∈ l ∧ a ∉ seen := by
  induction l with
  | nil =>
    intro seen
    simp [dedupFirstAux]
  | cons x rest ih =>
    intro seen
    unfold dedupFirstAux
    by_cases hx : x ∈ seen
    · rw [if_pos hx, ih seen, List.mem_cons]
      constructor
      · rintro ⟨h1, h2⟩
        exact ⟨Or.inr h1, h2⟩
      · rintro ⟨h1 | h1, h2⟩
        · subst h1
          exact absurd hx h2
        · exact ⟨h1, h2⟩
    · rw [if_neg hx, List.mem_cons, ih (x :: seen), List.mem_cons, List.mem_cons]
      by_cases hax : a = x
      · subst hax
        simp [hx]
      · tauto

theorem nodup_dedupFirstAux {α : Type} [DecidableEq α] (l : List α) :
    ∀ seen, (dedupFirstAux l seen).Nodup := by
  induction l with
  | nil =>
    intro seen
    simp [dedupFirstAux]
  | cons x rest ih =>
    intro seen
    unfold dedupFirstAux
    by_cases hx : x ∈ seen
    · rw [if_pos hx]
      exact ih seen
    · rw [if_neg hx]
      refine List.nodup_cons.mpr ⟨?_, ih (x :: seen)⟩
      intro hmem
      rcases (mem_dedupFirstAux x rest (x :: seen)).mp hmem with ⟨-, h2⟩
      exact h2 (List.mem_cons_self x seen)

theorem mem_dedupFirst {α : Type} [DecidableEq α] (a : α) (l : List α) :
    a ∈ dedupFirst l ↔ a ∈ l := by
  unfold dedupFirst
  rw [mem_dedupFirstAux]
  simp

theorem nodup_dedupFirst {α : Type} [DecidableEq α] (l : List α) :
    (dedupFirst l).Nodup := nodup_dedupFirstAux l []

/-! ### Recency as a bound on the age in seconds -/

theorem is_recent_iff (now : Int) (p : Post) :
    is_recent now p = true ↔ now - p.timestamp < 3600 := by
  unfold is_recent age_minutes
  rw [decide_eq_true_iff]
  constructor
  · intro h
    by_contra hge
    push_neg at hge
    have h0 : (0 : Int) ≤ now - p.timestamp := by omega
    rw [Int.tdiv_eq_ediv h0 (by norm_num)] at h
    have h60 : (60 : Int) ≤ (now - p.timestamp) / 60 :=
      (Int.le_ediv_iff_mul_le (by norm_num : (0 : Int) < 60)).mpr (by linarith)
    omega
  · intro h
    rcases le_or_lt 0 (now - p.timestamp) with h0 | h0
    · rw [Int.tdiv_eq_ediv h0 (by norm_num)]
      exact (Int.ediv_lt_iff_lt_mul (by norm_num : (0 : Int) < 60)).mpr (by linarith)
    · have hneg : (now - p.timestamp).tdiv 60 ≤ 0 := by
        have h1 : (0 : Int) ≤ -(now - p.timestamp) := by omega
        have h2 : 0 ≤ (-(now - p.timestamp)).tdiv 60 := Int.tdiv_nonneg h1 (by norm_num)
        rw [Int.neg_tdiv] at h2
        omega
      omega

/-! ### Specification-side definitions for the scoring formula -/

/-- All entries sharing a keyword text carry the same weight; every
cached keyword set satisfies this, since keywords are unique by text in
the store. -/
def uniform_weights (l : List Keyword) : Prop :=
  ∀ m ∈ l, ∀ m2 ∈ l, m.text = m2.text → m.weight = m2.weight

instance (l : List Keyword) : Decidable (uniform_weights l) := by
  unfold uniform_weights
  infer_instance

/-- Modelled from the spec: the contribution of one keyword of weight
`w` occurring `n` times — the full weight for the first occurrence,
`floor(w/2)` more for the second, and nothing further for the third and
later occurrences. -/
def specContribution (n : Nat) (w : Int) : Int :=
  if n = 0 then 0 else if n = 1 then w else w + w.fdiv 2

/-- Weight of the first entry of `l` carrying text `t` (the keyword's
weight whenever weights are uniform per text). -/
def weightOf (l : List Keyword) (t : String) : Int :=
  ((l.find? (textIs t)).map Keyword.weight).getD 0

/-- Modelled from the spec: the total keyword score as the sum, over the
distinct keyword texts of the match list, of that keyword's
contribution. -/
def specKeywordScore (l : List Keyword) : Int :=
  ((dedupFirst (l.map Keyword.text)).map
    (fun t => specContribution (countOcc t l) (weightOf l t))).sum

/-- The ordering the spec claims for the full keyword read: weight
descending with ties broken by keyword text ascending (and no use of the
category). -/
def claimWeightOrder (l : List Keyword) : Prop :=
  l.Pairwise fun a b =>
    b.weight < a.weight ∨ (a.weight = b.weight ∧ lexLtB b.text.data a.text.data = false)

instance (l : List Keyword) : Decidable (claimWeightOrder l) := by
  unfold claimWeightOrder
  infer_instance

/-- Concrete future-dated post used by the C10 witness. -/
def demoFuturePost : Post :=
  { platform := .reddit, post_id := "x1", title := "t", content := "c",
    author := "a", url := "u", timestamp := 100 }

example : find_matches [⟨"saw", "tools", 5⟩] "I saw a jigsaw" = [⟨"saw", "tools", 5⟩] := by decide

example : find_matches [⟨"saw", "tools", 5⟩] "my jigsaw" = [] := by decide

example : calculate_keyword_score [⟨"saw", "t", 5⟩, ⟨"saw", "t", 5⟩, ⟨"saw", "t", 5⟩] = 7 := by
  decide

example : db_get_keywords [⟨"saw", "tools", 10⟩, ⟨"glue", "adhesive", 5⟩] true none
    = [⟨"glue", "adhesive", 5⟩, ⟨"saw", "tools", 10⟩] := by decide

/-! ### Claim C1 -/

/-- C1 counterexample: with the single cached keyword "saw", the text
"saw saw" contains two token-aligned whole-word occurrences of the
keyword (at positions 0 and 4), yet `find_matches` returns only one list
entry for it, not two — `re.search` is used as a Boolean test, so the
occurrence count never multiplies the entries. -/
theorem find_matches_single_entry_cex :
    tokenAlignedAt "saw".data (toLowerList "saw saw") 0 ∧
    tokenAlignedAt "saw".data (toLowerList "saw saw") 4 ∧
    (find_matches [⟨"saw", "tools", 5⟩] "saw saw").countP
      (fun m => decide (m.text = "saw")) = 1 := by
  decide

/-- C1 amended: for every cached keyword set containing exactly one
keyword of text `t`, and every nonempty text with at least one
token-aligned whole-word occurrence of `t`, `find_matches` returns
exactly one list entry for that keyword, regardless of how many times it
occurs. -/
theorem find_matches_single_entry (keywords : List Keyword) (text t : String) (i : Nat)
    (huniq : keywords.countP (fun k => decide (k.text = t)) = 1)
    (htext : text ≠ "")
    (hne : t.data ≠ [])
    (hw : ∀ c ∈ t.data, isWordChar c = true)
    (hocc : tokenAlignedAt t.data (toLowerList text) i) :
    (find_matches keywords text).countP (fun m => decide (m.text = t)) = 1 := by
  have hmatch : wbMatch t.data (toLowerList text) = true :=
    wbMatch_of_tokenAligned hocc hne hw
  unfold find_matches
  rw [if_neg htext, List.countP_filter, ← huniq]
  apply List.countP_congr
  intro k _
  by_cases hkt : k.text = t
  · simp [hkt, hmatch]
  · simp [hkt]

/-- C1 amended witness at the two-occurrence text "saw saw". -/
theorem find_matches_single_entry_witness :
    ([⟨"saw", "tools", 5⟩] : List Keyword).countP (fun k => decide (k.text = "saw")) = 1 ∧
    "saw saw" ≠ "" ∧
    "saw".data ≠ [] ∧
    (∀ c ∈ "saw".data, isWordChar c = true) ∧
    tokenAlignedAt "saw".data (toLowerList "saw saw") 0 ∧
    (find_matches [⟨"saw", "tools", 5⟩] "saw saw").countP
      (fun m => decide (m.text = "saw")) = 1 :=
  ⟨by decide, by decide, by decide, by decide, by decide,
    find_matches_single_entry [⟨"saw", "tools", 5⟩] "saw saw" "saw" 0
      (by decide) (by decide) (by decide) (by decide) (by decide)⟩

/-! ### Claim C2 -/

/-- C2 counterexample: when the keyword store read fails, `get_keywords`
catches the `sqlite3.Error` and returns the empty list instead of
propagating an error, and `find_matches` then returns a normally
computed result from that empty keyword set — here the empty match list
for a text that would match the stored keyword on a successful read. -/
theorem keyword_read_failure_cex :
    db_get_keywords [⟨"saw", "tools", 5⟩] false none = [] ∧
    find_matches (db_get_keywords [⟨"saw", "tools", 5⟩] false none) "saw" = [] ∧
    find_matches (db_get_keywords [⟨"saw", "tools", 5⟩] true none) "saw"
      = [⟨"saw", "tools", 5⟩] := by
  decide

/-- C2 amended: if the keyword store read fails during a cache refresh,
`get_keywords` returns the empty keyword list (the error is logged and
swallowed, not propagated), and `find_matches` consequently returns the
empty match list for every text — the system silently scores against an
empty keyword set. -/
theorem keyword_read_failure_empty (store : List Keyword) (category : Option String)
    (text : String) :
    db_get_keywords store false category = [] ∧
    find_matches (db_get_keywords store false category) text = [] := by
  refine ⟨rfl, ?_⟩
  show find_matches [] text = []
  unfold find_matches
  split
  · rfl
  · rfl

/-! ### Claim C4 -/

/-- C4: `score_post` computes its keyword score on the first-occurrence
deduplication of the concatenated title and content matches (a list that
has no duplicate tuples and contains a tuple iff it matched the title or
the content), adds the recency bonus exactly when the post's age is
under 60 minutes (3600 seconds), adds the external-link penalty exactly
when the post has external links, and the final score is the plain sum
of the three parts. -/
theorem score_post_composition (cfg : ScoringConfig) (keywords : List Keyword)
    (now : Int) (p : Post) :
    (score_post cfg keywords now p).keyword_score
      = calculate_keyword_score
          (dedupFirst (find_matches keywords p.title ++ find_matches keywords p.content)) ∧
    (dedupFirst (find_matches keywords p.title ++ find_matches keywords p.content)).Nodup ∧
    (∀ m : Keyword,
      m ∈ dedupFirst (find_matches keywords p.title ++ find_matches keywords p.content)
        ↔ m ∈ find_matches keywords p.title ∨ m ∈ find_matches keywords p.content) ∧
    (score_post cfg keywords now p).time_bonus
      = (if now - p.timestamp < 3600 then cfg.recent_post_bonus else 0) ∧
    (score_post cfg keywords now p).link_penalty
      = (if p.has_external_links then cfg.external_link_penalty else 0) ∧
    (score_post cfg keywords now p).final_score
      = (score_post cfg keywords now p).keyword_score
        + (score_post cfg keywords now p).time_bonus
        + (score_post cfg keywords now p).link_penalty := by
  refine ⟨rfl, nodup_dedupFirst _, ?_, ?_, rfl, rfl⟩
  · intro m
    rw [mem_dedupFirst, List.mem_append]
  · have hr := is_recent_iff now p
    show (if is_recent now p then cfg.recent_post_bonus else 0) = _
    cases hb : is_recent now p with
    | false =>
      have hnot : ¬ (now - p.timestamp < 3600) := fun hc => by
        rw [hr.mpr hc] at hb
        cases hb
      rw [if_neg hnot]
      rfl
    | true =>
      rw [if_pos (hr.mp hb)]
      rfl

/-! ### Claim C5 -/

/-- C5: every keyword reported by `find_matches` (a nonempty keyword of
word characters) has a token-aligned whole-word occurrence in the
lower-cased text; a keyword occurring only as a strict substring of a
larger token is never reported. -/
theorem find_matches_token_aligned (keywords : List Keyword) (text : String) (k : Keyword)
    (hk : k ∈ find_matches keywords text)
    (hne : k.text.data ≠ [])
    (hw : ∀ c ∈ k.text.data, isWordChar c = true) :
    ∃ i, tokenAlignedAt k.text.data (toLowerList text) i := by
  unfold find_matches at hk
  split at hk
  · exact absurd hk (List.not_mem_nil k)
  · rw [List.mem_filter] at hk
    exact tokenAligned_of_wbMatch hk.2 hne hw

/-- C5 witness: "saw" matched inside "I saw it" has a token-aligned
occurrence. -/
theorem find_matches_token_aligned_witness :
    (⟨"saw", "tools", 5⟩ : Keyword) ∈ find_matches [⟨"saw", "tools", 5⟩] "I saw it" ∧
    ∃ i, tokenAlignedAt "saw".data (toLowerList "I saw it") i :=
  ⟨by decide,
    find_matches_token_aligned [⟨"saw", "tools", 5⟩] "I saw it" ⟨"saw", "tools", 5⟩
      (by decide) (by decide) (by decide)⟩

/-! ### Claim C10 -/

/-- C10: a post whose timestamp is at or after the current time passes
`filter_by_age` for every nonnegative maximum age, counts as recent, and
receives the full recency bonus from `score_post` — no upper bound on
timestamps is enforced. -/
theorem future_post_passes (cfg : ScoringConfig) (keywords : List Keyword) (now : Int)
    (p : Post) (max_age_hours : Int) (posts : List Post)
    (hfut : now ≤ p.timestamp) (hage : 0 ≤ max_age_hours) (hp : p ∈ posts) :
    p ∈ filter_by_age now max_age_hours posts ∧
    is_recent now p = true ∧
    (score_post cfg keywords now p).time_bonus = cfg.recent_post_bonus := by
  have hrec : is_recent now p = true := (is_recent_iff now p).mpr (by omega)
  refine ⟨?_, hrec, ?_⟩
  · unfold filter_by_age
    rw [List.mem_filter]
    refine ⟨hp, ?_⟩
    have h1 : (0 : Int) ≤ max_age_hours * 3600 := mul_nonneg hage (by norm_num)
    rw [decide_eq_true_iff]
    omega
  · show (if is_recent now p then cfg.recent_post_bonus else 0) = _
    rw [hrec]
    rfl

/-- C10 witness: a post dated 100 seconds into the future. -/
theorem future_post_passes_witness :
    ((0 : Int) ≤ (100 : Int)) ∧
    (demoFuturePost ∈ filter_by_age 0 24 [demoFuturePost] ∧
      is_recent 0 demoFuturePost = true ∧
      (score_post ⟨7, -2, 5⟩ [] 0 demoFuturePost).time_bonus = (7 : Int)) :=
  ⟨by decide,
    future_post_passes ⟨7, -2, 5⟩ [] 0 demoFuturePost 24 [demoFuturePost]
      (by decide) (by decide) (by decide)⟩

/-! ### Algebra of the diminishing-returns keyword score -/

theorem countOcc_cons (t : String) (m : Keyword) (seen : List Keyword) :
    countOcc t (m :: seen) = countOcc t seen + (if m.text = t then 1 else 0) := by
  unfold countOcc
  rw [List.countP_cons]
  by_cases h : m.text = t <;> simp [textIs, h]

theorem countOcc_filter_textIs (t : String) (seen : List Keyword) :
    countOcc t (seen.filter (textIs t)) = countOcc t seen := by
  unfold countOcc
  rw [List.countP_filter]
  apply List.countP_congr
  intro x _
  by_cases h : x.text = t <;> simp [textIs, h]

theorem countOcc_filter_textNot (t2 t : String) (h : t2 ≠ t) (seen : List Keyword) :
    countOcc t2 (seen.filter (textNot t)) = countOcc t2 seen := by
  unfold countOcc
  rw [List.countP_filter]
  apply List.countP_congr
  intro x _
  by_cases h2 : x.text = t2
  · have hnt : ¬ x.text = t := by
      rw [h2]
      exact h
    simp [textIs, textNot, h2, h]
  · simp [textIs, h2]

theorem contribAt_eq (m : Keyword) (seen1 seen2 : List Keyword)
    (h : countOcc m.text seen1 = countOcc m.text seen2) :
    contribAt m seen1 = contribAt m seen2 := by
  unfold contribAt
  rw [h]

theorem uniform_weights_subset {l1 l2 : List Keyword}
    (hsub : ∀ x ∈ l1, x ∈ l2) (h : uniform_weights l2) : uniform_weights l1 :=
  fun m hm m2 hm2 ht => h m (hsub m hm) m2 (hsub m2 hm2) ht

theorem calcScoreGo_partition (t : String) (l : List Keyword) :
    ∀ seen, calcScoreGo l seen
      = calcScoreGo (l.filter (textIs t)) (seen.filter (textIs t))
        + calcScoreGo (l.filter (textNot t)) (seen.filter (textNot t)) := by
  induction l with
  | nil =>
    intro seen
    simp [calcScoreGo]
  | cons m rest ih =>
    intro seen
    by_cases hm : m.text = t
    · have hpt : textIs t m = true := by simp [textIs, hm]
      have hpn : ¬ textNot t m = true := by simp [textNot, hm]
      rw [List.filter_cons_of_pos hpt, List.filter_cons_of_neg hpn]
      simp only [calcScoreGo]
      rw [ih (m :: seen), List.filter_cons_of_pos hpt, List.filter_cons_of_neg hpn,
        contribAt_eq m (seen.filter (textIs t)) seen
          (by rw [hm]; exact countOcc_filter_textIs t seen)]
      ring
    · have hpt : ¬ textIs t m = true := by simp [textIs, hm]
      have hpn : textNot t m = true := by simp [textNot, hm]
      rw [List.filter_cons_of_neg hpt, List.filter_cons_of_pos hpn]
      simp only [calcScoreGo]
      rw [ih (m :: seen), List.filter_cons_of_neg hpt, List.filter_cons_of_pos hpn,
        contribAt_eq m (seen.filter (textNot t)) seen
          (countOcc_filter_textNot m.text t hm seen)]
      ring

theorem calcScoreGo_single_text (t : String) (w : Int) (l : List Keyword) :
    ∀ seen, (∀ m ∈ l, m.text = t ∧ m.weight = w) →
      calcScoreGo l seen
        = (if countOcc t seen = 0 ∧ 1 ≤ l.length then w else 0)
          + (if countOcc t seen ≤ 1 ∧ 2 ≤ countOcc t seen + l.length then w.fdiv 2 else 0) := by
  induction l with
  | nil =>
    intro seen _
    simp only [calcScoreGo, List.length_nil]
    generalize countOcc t seen = k
    split_ifs <;> omega
  | cons m rest ih =>
    intro seen h
    obtain ⟨hmt, hmw⟩ := h m (List.mem_cons_self m rest)
    have hrest : ∀ x ∈ rest, x.text = t ∧ x.weight = w :=
      fun x hx => h x (List.mem_cons_of_mem m hx)
    simp only [calcScoreGo]
    rw [ih (m :: seen) hrest]
    have hcnt : countOcc t (m :: seen) = countOcc t seen + 1 := by
      rw [countOcc_cons, if_pos hmt]
    rw [hcnt]
    simp only [contribAt, hmt, hmw, List.length_cons]
    generalize w.fdiv 2 = v
    generalize countOcc t seen = k
    split_ifs <;> first | omega | exact False.elim (by tauto)

theorem dedupFirstAux_congr {α : Type} [DecidableEq α] (l : List α) :
    ∀ s1 s2, (∀ a : α, a ∈ s1 ↔ a ∈ s2) → dedupFirstAux l s1 = dedupFirstAux l s2 := by
  induction l with
  | nil =>
    intro s1 s2 _
    rfl
  | cons x rest ih =>
    intro s1 s2 h
    unfold dedupFirstAux
    by_cases hx : x ∈ s1
    · rw [if_pos hx, if_pos ((h x).mp hx)]
      exact ih s1 s2 h
    · rw [if_neg hx, if_neg (fun hc => hx ((h x).mpr hc))]
      rw [ih (x :: s1) (x :: s2) (fun a => by rw [List.mem_cons, List.mem_cons, h a])]

theorem dedupFirstAux_cons {α : Type} [DecidableEq α] (a : α) (l seen : List α) :
    dedupFirstAux (a :: l) seen
      = if a ∈ seen then dedupFirstAux l seen else a :: dedupFirstAux l (a :: seen) := rfl

theorem dedupFirstAux_cons_seen {α : Type} [DecidableEq α] (b : α) (l : List α) :
    ∀ s, dedupFirstAux l (b :: s) = dedupFirstAux (l.filter fun x => !decide (x = b)) s := by
  induction l with
  | nil =>
    intro s
    rfl
  | cons x rest ih =>
    intro s
    by_cases hxb : x = b
    · subst hxb
      rw [List.filter_cons_of_neg (by simp), dedupFirstAux_cons,
        if_pos (List.mem_cons_self x s)]
      exact ih s
    · rw [List.filter_cons_of_pos (by simp [hxb]), dedupFirstAux_cons, dedupFirstAux_cons]
      by_cases hx : x ∈ s
      · rw [if_pos (List.mem_cons_of_mem b hx), if_pos hx]
        exact ih s
      · have hx2 : x ∉ b :: s := by
          rw [List.mem_cons]
          rintro (hc | hc)
          exacts [hxb hc, hx hc]
        rw [if_neg hx2, if_neg hx,
          dedupFirstAux_congr rest (x :: b :: s) (b :: x :: s) (fun a => by
            rw [List.mem_cons, List.mem_cons, List.mem_cons, List.mem_cons]
            tauto),
          ih (x :: s)]

theorem find?_filter_of_imp {α : Type} (p q : α → Bool) (l : List α)
    (h : ∀ x ∈ l, p x = true → q x = true) :
    (l.filter q).find? p = l.find? p := by
  induction l with
  | nil => rfl
  | cons x rest ih =>
    have hrest := fun y hy => h y (List.mem_cons_of_mem x hy)
    by_cases hq : q x = true
    · rw [List.filter_cons_of_pos hq]
      by_cases hp : p x = true
      · rw [List.find?_cons_of_pos _ hp, List.find?_cons_of_pos _ hp]
      · rw [List.find?_cons_of_neg _ hp, List.find?_cons_of_neg _ hp]
        exact ih hrest
    · have hp : ¬ p x = true := fun hc => hq (h x (List.mem_cons_self x rest) hc)
      rw [List.filter_cons_of_neg hq, List.find?_cons_of_neg _ hp]
      exact ih hrest

theorem weightOf_cons_ne (m : Keyword) (rest : List Keyword) (t2 : String)
    (h : ¬ m.text = t2) : weightOf (m :: rest) t2 = weightOf rest t2 := by
  unfold weightOf
  rw [List.find?_cons_of_neg _ (by simp [textIs, h])]

theorem weightOf_filter_textNot (rest : List Keyword) (t t2 : String) (h : t2 ≠ t) :
    weightOf (rest.filter (textNot t)) t2 = weightOf rest t2 := by
  unfold weightOf
  rw [find?_filter_of_imp (textIs t2) (textNot t) rest]
  intro x _ hx
  simp only [textIs, decide_eq_true_eq] at hx
  simp [textNot, hx, h]

theorem specKeywordScore_cons (m : Keyword) (rest : List Keyword) :
    specKeywordScore (m :: rest)
      = specContribution (countOcc m.text (m :: rest)) m.weight
        + specKeywordScore (rest.filter (textNot m.text)) := by
  have hfe : (rest.map Keyword.text).filter (fun s => !decide (s = m.text))
      = (rest.filter (textNot m.text)).map Keyword.text := by
    rw [List.filter_map]
    exact congrArg (List.map Keyword.text) (List.filter_congr (fun x _ => rfl))
  have hdedup : dedupFirst ((m :: rest).map Keyword.text)
      = m.text :: dedupFirst ((rest.filter (textNot m.text)).map Keyword.text) := by
    rw [List.map_cons]
    show dedupFirstAux (m.text :: rest.map Keyword.text) [] = _
    unfold dedupFirstAux
    rw [if_neg (List.not_mem_nil m.text)]
    unfold dedupFirst
    rw [dedupFirstAux_cons_seen m.text (rest.map Keyword.text) [], hfe]
  unfold specKeywordScore
  rw [hdedup, List.map_cons, List.sum_cons]
  have hw : weightOf (m :: rest) m.text = m.weight := by
    unfold weightOf
    rw [List.find?_cons_of_pos _ (by simp [textIs])]
    rfl
  rw [hw]
  congr 1
  apply congrArg List.sum
  apply List.map_congr_left
  intro t2 ht2
  have ht2m : t2 ∈ (rest.filter (textNot m.text)).map Keyword.text :=
    (mem_dedupFirst t2 _).mp ht2
  obtain ⟨x, hx, hxt⟩ := List.mem_map.mp ht2m
  have hxn : textNot m.text x = true := (List.mem_filter.mp hx).2
  have hne : t2 ≠ m.text := by
    subst hxt
    simp only [textNot, Bool.not_eq_true', decide_eq_false_iff_not] at hxn
    exact hxn
  rw [countOcc_cons, if_neg (fun hc => hne hc.symm),
    countOcc_filter_textNot t2 m.text hne rest,
    weightOf_cons_ne m rest t2 (fun hc => hne hc.symm),
    weightOf_filter_textNot rest m.text t2 hne, Nat.add_zero]

theorem calc_spec_aux : ∀ (n : Nat) (l : List Keyword), l.length ≤ n → uniform_weights l →
    calculate_keyword_score l = specKeywordScore l := by
  intro n
  induction n with
  | zero =>
    intro l hl _
    have h0 : l = [] := List.eq_nil_of_length_eq_zero (Nat.le_zero.mp hl)
    subst h0
    rfl
  | succ n ih =>
    intro l hl hu
    cases l with
    | nil => rfl
    | cons m rest =>
      have hpart := calcScoreGo_partition m.text (m :: rest) []
      simp only [List.filter_nil] at hpart
      have hl1mem : ∀ x ∈ (m :: rest).filter (textIs m.text),
          x.text = m.text ∧ x.weight = m.weight := by
        intro x hx
        obtain ⟨hxl, hxp⟩ := List.mem_filter.mp hx
        have hxt : x.text = m.text := by simpa [textIs] using hxp
        exact ⟨hxt, hu x hxl m (List.mem_cons_self m rest) hxt⟩
      have hsingle := calcScoreGo_single_text m.text m.weight
        ((m :: rest).filter (textIs m.text)) [] hl1mem
      have hc0 : countOcc m.text ([] : List Keyword) = 0 := rfl
      rw [hc0] at hsingle
      have hlen : ((m :: rest).filter (textIs m.text)).length = countOcc m.text (m :: rest) := by
        unfold countOcc
        rw [List.countP_eq_length_filter]
      have hge1 : 1 ≤ ((m :: rest).filter (textIs m.text)).length := by
        rw [List.filter_cons_of_pos (by simp [textIs])]
        simp
      show calcScoreGo (m :: rest) [] = _
      rw [hpart, hsingle]
      have hl2 : (m :: rest).filter (textNot m.text) = rest.filter (textNot m.text) :=
        List.filter_cons_of_neg (by simp [textNot])
      rw [hl2]
      have hih : calcScoreGo (rest.filter (textNot m.text)) []
          = specKeywordScore (rest.filter (textNot m.text)) := by
        have hlen2 : (rest.filter (textNot m.text)).length ≤ n := by
          have := List.length_filter_le (textNot m.text) rest
          simp only [List.length_cons] at hl
          omega
        exact ih (rest.filter (textNot m.text)) hlen2
          (uniform_weights_subset
            (fun x hx => List.mem_cons_of_mem m (List.mem_filter.mp hx).1) hu)
      rw [hih, specKeywordScore_cons m rest, ← hlen]
      unfold specContribution
      generalize m.weight.fdiv 2 = v
      set L := ((m :: rest).filter (textIs m.text)).length with hL
      split_ifs <;> omega

theorem calcScoreGo_congr_seen (l : List Keyword) :
    ∀ s1 s2, (∀ t, countOcc t s1 = countOcc t s2) → calcScoreGo l s1 = calcScoreGo l s2 := by
  induction l with
  | nil =>
    intro _ _ _
    rfl
  | cons m rest ih =>
    intro s1 s2 h
    simp only [calcScoreGo]
    rw [contribAt_eq m s1 s2 (h m.text),
      ih (m :: s1) (m :: s2) (fun t => by rw [countOcc_cons, countOcc_cons, h t])]

theorem calcScoreGo_perm {l1 l2 : List Keyword} (hp : l1.Perm l2) :
    uniform_weights l1 → ∀ seen, calcScoreGo l1 seen = calcScoreGo l2 seen := by
  induction hp with
  | nil =>
    intro _ _
    rfl
  | cons a _ ih =>
    intro hu seen
    simp only [calcScoreGo]
    rw [ih (uniform_weights_subset (fun x hx => List.mem_cons_of_mem a hx) hu) (a :: seen)]
  | swap x y l =>
    intro hu seen
    simp only [calcScoreGo]
    have hgo : calcScoreGo l (x :: y :: seen) = calcScoreGo l (y :: x :: seen) :=
      calcScoreGo_congr_seen l _ _ (fun t => by
        rw [countOcc_cons, countOcc_cons, countOcc_cons, countOcc_cons]
        ring)
    rw [hgo]
    by_cases hxy : x.text = y.text
    · have hwxy : x.weight = y.weight :=
        hu x (List.mem_cons_of_mem y (List.mem_cons_self x l)) y
          (List.mem_cons_self y (x :: l)) hxy
      simp only [contribAt]
      rw [hxy, hwxy]
      have h1 : countOcc y.text (y :: seen) = countOcc y.text seen + 1 := by
        rw [countOcc_cons, if_pos rfl]
      have h2 : countOcc y.text (x :: seen) = countOcc y.text seen + 1 := by
        rw [countOcc_cons, if_pos hxy]
      rw [h1, h2]
    · have h1 : countOcc x.text (y :: seen) = countOcc x.text seen := by
        rw [countOcc_cons, if_neg (fun hc => hxy hc.symm), Nat.add_zero]
      have h2 : countOcc y.text (x :: seen) = countOcc y.text seen := by
        rw [countOcc_cons, if_neg hxy, Nat.add_zero]
      simp only [contribAt]
      rw [h1, h2]
      ring
  | trans hp1 _ ih1 ih2 =>
    intro hu seen
    rw [ih1 hu seen,
      ih2 (uniform_weights_subset (fun x hx => hp1.mem_iff.mpr hx) hu) seen]

/-! ### Claim C3 -/

/-- C3: for every match list whose entries have uniform weights per
keyword text, `calculate_keyword_score` equals the sum over the distinct
keyword texts of that keyword's contribution — the full weight for a
single occurrence, `w + floor(w/2)` for two occurrences, and still
`w + floor(w/2)` (no further increase) for three or more. -/
theorem calc_score_eq_spec_sum (l : List Keyword) (h : uniform_weights l) :
    calculate_keyword_score l = specKeywordScore l :=
  calc_spec_aux l.length l (le_refl _) h

/-- C3 witness: three occurrences of a weight-5 keyword score
`5 + floor(5/2) = 7`, never `15`. -/
theorem calc_score_eq_spec_sum_witness :
    uniform_weights [⟨"saw", "t", 5⟩, ⟨"saw", "t", 5⟩, ⟨"saw", "t", 5⟩] ∧
    calculate_keyword_score [⟨"saw", "t", 5⟩, ⟨"saw", "t", 5⟩, ⟨"saw", "t", 5⟩]
      = specKeywordScore [⟨"saw", "t", 5⟩, ⟨"saw", "t", 5⟩, ⟨"saw", "t", 5⟩] ∧
    calculate_keyword_score [⟨"saw", "t", 5⟩, ⟨"saw", "t", 5⟩, ⟨"saw", "t", 5⟩] = 7 :=
  ⟨by decide, calc_score_eq_spec_sum _ (by decide), by decide⟩

/-! ### Claim C6 -/

/-- C6: for match lists whose entries have uniform weights per keyword
text, `calculate_keyword_score` is invariant under permutation of the
input list. -/
theorem calc_score_perm_invariant (l1 l2 : List Keyword) (hp : l1.Perm l2)
    (hu : uniform_weights l1) :
    calculate_keyword_score l1 = calculate_keyword_score l2 :=
  calcScoreGo_perm hp hu []

/-- C6 witness: a two-element match list and its reversal score
equally. -/
theorem calc_score_perm_invariant_witness :
    ([⟨"a", "c", 4⟩, ⟨"b", "c", 6⟩] : List Keyword).Perm [⟨"b", "c", 6⟩, ⟨"a", "c", 4⟩] ∧
    uniform_weights [⟨"a", "c", 4⟩, ⟨"b", "c", 6⟩] ∧
    calculate_keyword_score [⟨"a", "c", 4⟩, ⟨"b", "c", 6⟩]
      = calculate_keyword_score [⟨"b", "c", 6⟩, ⟨"a", "c", 4⟩] :=
  ⟨by decide, by decide,
    calc_score_perm_invariant _ _ (by decide) (by decide)⟩

/-! ### Lemmas for duplicate filtering -/

theorem filterDupGo_cons (p : Post) (rest : List Post) (seen : List (String × String)) :
    filterDupGo (p :: rest) seen
      = if postKey p ∈ seen then filterDupGo rest seen
        else p :: filterDupGo rest (postKey p :: seen) := rfl

theorem filterDupGo_key_not_seen {q : Post} :
    ∀ (l : List Post) (seen : List (String × String)),
      q ∈ filterDupGo l seen → postKey q ∉ seen := by
  intro l
  induction l with
  | nil =>
    intro seen h
    exact absurd h (List.not_mem_nil q)
  | cons p rest ih =>
    intro seen h
    rw [filterDupGo_cons] at h
    by_cases hp : postKey p ∈ seen
    · rw [if_pos hp] at h
      exact ih seen h
    · rw [if_neg hp] at h
      rcases List.mem_cons.mp h with h1 | h2
      · subst h1
        exact hp
      · have h3 := ih (postKey p :: seen) h2
        intro hc
        exact h3 (List.mem_cons_of_mem _ hc)

theorem filterDupGo_sublist : ∀ (l : List Post) (seen : List (String × String)),
    (filterDupGo l seen).Sublist l := by
  intro l
  induction l with
  | nil =>
    intro seen
    exact List.Sublist.refl []
  | cons p rest ih =>
    intro seen
    rw [filterDupGo_cons]
    by_cases hp : postKey p ∈ seen
    · rw [if_pos hp]
      exact (ih seen).cons p
    · rw [if_neg hp]
      exact (ih (postKey p :: seen)).cons₂ p

theorem filterDupGo_first : ∀ (l : List Post) (seen : List (String × String)),
    ∀ q ∈ filterDupGo l seen,
      l.find? (fun x => decide (postKey x = postKey q)) = some q := by
  intro l
  induction l with
  | nil =>
    intro seen q hq
    exact absurd hq (List.not_mem_nil q)
  | cons p rest ih =>
    intro seen q hq
    rw [filterDupGo_cons] at hq
    by_cases hp : postKey p ∈ seen
    · rw [if_pos hp] at hq
      have hqn : postKey q ∉ seen := filterDupGo_key_not_seen rest seen hq
      have hne : ¬ (decide (postKey p = postKey q) = true) := by
        rw [decide_eq_true_iff]
        intro hc
        exact hqn (hc ▸ hp)
      rw [@List.find?_cons_of_neg Post (fun x => decide (postKey x = postKey q)) p rest hne]
      exact ih seen q hq
    · rw [if_neg hp] at hq
      rcases List.mem_cons.mp hq with h1 | h2
      · subst h1
        rw [@List.find?_cons_of_pos Post (fun x => decide (postKey x = postKey q)) q rest
          (by simp)]
      · have hqn : postKey q ∉ postKey p :: seen :=
          filterDupGo_key_not_seen rest (postKey p :: seen) h2
        have hne : ¬ (decide (postKey p = postKey q) = true) := by
          rw [decide_eq_true_iff]
          intro hc
          exact hqn (hc ▸ List.mem_cons_self (postKey p) seen)
        rw [@List.find?_cons_of_neg Post (fun x => decide (postKey x = postKey q)) p rest hne]
        exact ih (postKey p :: seen) q h2

theorem filterDupGo_covers : ∀ (l : List Post) (seen : List (String × String)),
    ∀ p ∈ l, postKey p ∉ seen →
      ∃ q, q ∈ filterDupGo l seen ∧ postKey q = postKey p := by
  intro l
  induction l with
  | nil =>
    intro seen p hp _
    exact absurd hp (List.not_mem_nil p)
  | cons x rest ih =>
    intro seen p hp hns
    rw [filterDupGo_cons]
    rcases List.mem_cons.mp hp with h1 | h2
    · subst h1
      rw [if_neg hns]
      exact ⟨p, List.mem_cons_self p _, rfl⟩
    · by_cases hx : postKey x ∈ seen
      · rw [if_pos hx]
        exact ih seen p h2 hns
      · rw [if_neg hx]
        by_cases hkey : postKey p = postKey x
        · exact ⟨x, List.mem_cons_self x _, hkey.symm⟩
        · have hns2 : postKey p ∉ postKey x :: seen := by
            rw [List.mem_cons]
            rintro (hc | hc)
            exacts [hkey hc, hns hc]
          obtain ⟨q, hq1, hq2⟩ := ih (postKey x :: seen) p h2 hns2
          exact ⟨q, List.mem_cons_of_mem x hq1, hq2⟩

theorem filterDupGo_pairwise : ∀ (l : List Post) (seen : List (String × String)),
    (filterDupGo l seen).Pairwise (fun a b => postKey a ≠ postKey b) := by
  intro l
  induction l with
  | nil =>
    intro seen
    exact List.Pairwise.nil
  | cons p rest ih =>
    intro seen
    rw [filterDupGo_cons]
    by_cases hp : postKey p ∈ seen
    · rw [if_pos hp]
      exact ih seen
    · rw [if_neg hp]
      refine List.pairwise_cons.mpr ⟨?_, ih (postKey p :: seen)⟩
      intro b hb hc
      have := filterDupGo_key_not_seen rest (postKey p :: seen) hb
      exact this (hc ▸ List.mem_cons_self (postKey p) seen)

theorem filterDupGo_eq_self : ∀ (l : List Post) (seen : List (String × String)),
    l.Pairwise (fun a b => postKey a ≠ postKey b) →
    (∀ p ∈ l, postKey p ∉ seen) → filterDupGo l seen = l := by
  intro l
  induction l with
  | nil =>
    intro seen _ _
    rfl
  | cons x rest ih =>
    intro seen hpw hsn
    obtain ⟨hhead, htail⟩ := List.pairwise_cons.mp hpw
    rw [filterDupGo_cons, if_neg (hsn x (List.mem_cons_self x rest))]
    congr 1
    apply ih (postKey x :: seen) htail
    intro p hp
    rw [List.mem_cons]
    rintro (hc | hc)
    · exact hhead p hp hc.symm
    · exact hsn p (List.mem_cons_of_mem x hp) hc

/-! ### Claim C9 -/

/-- C9: `filter_duplicates` keeps, in their original relative order (a
sublist of the input), exactly the first post of each
`(platform, post_id)` key — each kept post is what `find?` locates for
its key, every input key is represented, kept keys are pairwise
distinct — and the operation is idempotent. -/
theorem filter_duplicates_spec (posts : List Post) :
    (filter_duplicates posts).Sublist posts ∧
    (∀ q ∈ filter_duplicates posts,
      posts.find? (fun x => decide (postKey x = postKey q)) = some q) ∧
    (∀ p ∈ posts, ∃ q, q ∈ filter_duplicates posts ∧ postKey q = postKey p) ∧
    (filter_duplicates posts).Pairwise (fun a b => postKey a ≠ postKey b) ∧
    filter_duplicates (filter_duplicates posts) = filter_duplicates posts :=
  ⟨filterDupGo_sublist posts [],
    fun q hq => filterDupGo_first posts [] q hq,
    fun p hp => filterDupGo_covers posts [] p hp (List.not_mem_nil _),
    filterDupGo_pairwise posts [],
    filterDupGo_eq_self (filter_duplicates posts) [] (filterDupGo_pairwise posts [])
      (fun _ _ => List.not_mem_nil _)⟩

/-! ### Stability and shape of the sorting pipeline -/

theorem filter_orderedInsert_score (s : Int) (a : ScoringResult) (l : List ScoringResult) :
    (List.orderedInsert descRel a l).filter (fun r => decide (r.final_score = s))
      = if a.final_score = s
        then a :: l.filter (fun r => decide (r.final_score = s))
        else l.filter (fun r => decide (r.final_score = s)) := by
  induction l with
  | nil =>
    by_cases h : a.final_score = s
    · rw [if_pos h]
      rw [List.orderedInsert_nil, List.filter_cons_of_pos (by simp [h])]
    · rw [if_neg h]
      rw [List.orderedInsert_nil, List.filter_cons_of_neg (by simp [h])]
  | cons b t ih =>
    rw [show List.orderedInsert descRel a (b :: t)
        = if descRel a b then a :: b :: t else b :: List.orderedInsert descRel a t from rfl]
    by_cases hab : descRel a b
    · rw [if_pos hab]
      by_cases ha : a.final_score = s
      · rw [if_pos ha, List.filter_cons_of_pos (by simp [ha])]
      · rw [if_neg ha, List.filter_cons_of_neg (by simp [ha])]
    · rw [if_neg hab]
      have hlt : a.final_score < b.final_score := lt_of_not_ge hab
      by_cases hb : b.final_score = s
      · have ha : ¬ a.final_score = s := by
          intro hc
          rw [hc, hb] at hlt
          exact lt_irrefl s hlt
        rw [if_neg ha, List.filter_cons_of_pos (by simp [hb]),
          List.filter_cons_of_pos (by simp [hb]), ih, if_neg ha]
      · rw [List.filter_cons_of_neg (by simp [hb]), List.filter_cons_of_neg (by simp [hb]),
          ih]

theorem insertionSort_filter_score (s : Int) (l : List ScoringResult) :
    (List.insertionSort descRel l).filter (fun r => decide (r.final_score = s))
      = l.filter (fun r => decide (r.final_score = s)) := by
  induction l with
  | nil => rfl
  | cons a t ih =>
    rw [show List.insertionSort descRel (a :: t)
        = List.orderedInsert descRel a (List.insertionSort descRel t) from rfl]
    rw [filter_orderedInsert_score s a (List.insertionSort descRel t), ih]
    by_cases h : a.final_score = s
    · rw [if_pos h, List.filter_cons_of_pos (by simp [h])]
    · rw [if_neg h, List.filter_cons_of_neg (by simp [h])]

theorem filter_top_posts_eq_take (cfg : ScoringConfig) (results : List ScoringResult) :
    filter_top_posts cfg results = results.take cfg.max_posts_per_run := by
  unfold filter_top_posts
  split_ifs with h
  · rw [List.take_of_length_le h]
  · rfl

/-! ### Claim C7 -/

/-- C7: every list returned by `process_posts` is sorted by final score
descending; results of equal final score appear in their pre-sort
(scoring) order — the filtered output restricted to any score value is a
prefix of the pre-sort scored list restricted to that value; every
returned result clears the default score floor of 1; the list is capped
at `max_posts_per_run`; and an empty filter stage returns the empty
list. -/
theorem process_posts_pipeline (cfg : ScoringConfig) (keywords : List Keyword) (now : Int)
    (processed : String → String → Bool) (posts : List Post) :
    (process_posts cfg keywords now processed posts).Pairwise
        (fun a b => b.final_score ≤ a.final_score) ∧
    (∀ r ∈ process_posts cfg keywords now processed posts, 1 ≤ r.final_score) ∧
    (process_posts cfg keywords now processed posts).length ≤ cfg.max_posts_per_run ∧
    (filter_by_age now 24 (filter_processed processed (filter_duplicates posts)) = [] →
      process_posts cfg keywords now processed posts = []) ∧
    (∀ s : Int, ∃ rest,
      ((filter_by_age now 24 (filter_processed processed (filter_duplicates posts))).map
          (score_post cfg keywords now)).filter (fun r => decide (r.final_score = s))
        = (process_posts cfg keywords now processed posts).filter
            (fun r => decide (r.final_score = s)) ++ rest) := by
  by_cases hemp : filter_by_age now 24 (filter_processed processed (filter_duplicates posts)) = []
  · have hout : process_posts cfg keywords now processed posts = [] := by
      simp only [process_posts]
      rw [if_pos hemp]
    refine ⟨?_, ?_, ?_, fun _ => hout, ?_⟩
    · rw [hout]
      exact List.Pairwise.nil
    · rw [hout]
      intro r hr
      exact absurd hr (List.not_mem_nil r)
    · rw [hout]
      simp
    · intro s
      refine ⟨[], ?_⟩
      rw [hout, hemp]
      rfl
  · have hout : process_posts cfg keywords now processed posts
        = filter_top_posts cfg (filter_by_score 1 (score_posts cfg keywords now
            (filter_by_age now 24 (filter_processed processed (filter_duplicates posts))))) := by
      simp only [process_posts]
      rw [if_neg hemp]
    rw [hout, filter_top_posts_eq_take]
    set f3 := filter_by_age now 24 (filter_processed processed (filter_duplicates posts)) with hf3
    have hsorted : (score_posts cfg keywords now f3).Pairwise descRel :=
      List.sorted_insertionSort descRel (f3.map (score_post cfg keywords now))
    have hsf : filter_by_score 1 (score_posts cfg keywords now f3)
        = (score_posts cfg keywords now f3).filter (fun r => decide (1 ≤ r.final_score)) := rfl
    refine ⟨?_, ?_, ?_, ?_, ?_⟩
    · exact List.Pairwise.sublist (List.take_sublist _ _) (hsf ▸ hsorted.filter _)
    · intro r hr
      have hr2 : r ∈ filter_by_score 1 (score_posts cfg keywords now f3) :=
        (List.take_sublist _ _).subset hr
      rw [hsf] at hr2
      exact of_decide_eq_true (List.mem_filter.mp hr2).2
    · exact List.length_take_le _ _
    · intro hc
      exact absurd hc hemp
    · intro s
      by_cases hs1 : (1 : Int) ≤ s
      · have h1 : (List.insertionSort descRel (f3.map (score_post cfg keywords now))).filter
            (fun r => decide (r.final_score = s))
            = (f3.map (score_post cfg keywords now)).filter
                (fun r => decide (r.final_score = s)) :=
          insertionSort_filter_score s _
        have h2 : (filter_by_score 1 (score_posts cfg keywords now f3)).filter
              (fun r => decide (r.final_score = s))
            = (score_posts cfg keywords now f3).filter (fun r => decide (r.final_score = s)) := by
          rw [hsf, List.filter_filter]
          apply List.filter_congr
          intro x _
          by_cases hx : x.final_score = s
          · simp [hx, hs1]
          · simp [hx]
        refine ⟨List.filter (fun r => decide (r.final_score = s))
            (List.drop cfg.max_posts_per_run
              (filter_by_score 1 (score_posts cfg keywords now f3))), ?_⟩
        rw [← List.filter_append, List.take_append_drop, h2]
        exact h1.symm
      · refine ⟨(f3.map (score_post cfg keywords now)).filter
            (fun r => decide (r.final_score = s)), ?_⟩
        have hnil : (List.take cfg.max_posts_per_run
            (filter_by_score 1 (score_posts cfg keywords now f3))).filter
              (fun r => decide (r.final_score = s)) = [] := by
          rw [List.filter_eq_nil_iff]
          intro r hr
          have hr2 : r ∈ filter_by_score 1 (score_posts cfg keywords now f3) :=
            (List.take_sublist _ _).subset hr
          rw [hsf] at hr2
          have h3 := of_decide_eq_true (List.mem_filter.mp hr2).2
          simp only [decide_eq_true_iff]
          intro hc
          rw [hc] at h3
          exact hs1 h3
        rw [hnil, List.nil_append]

/-- C7 witness: the pipeline guarantees instantiated at a concrete
configuration, keyword set, clock, store predicate and post list. -/
theorem process_posts_pipeline_witness :
    (process_posts ⟨7, -2, 5⟩ [⟨"saw", "tools", 5⟩] 1000 (fun _ _ => false)
        [demoFuturePost]).Pairwise (fun a b => b.final_score ≤ a.final_score) ∧
    (∀ r ∈ process_posts ⟨7, -2, 5⟩ [⟨"saw", "tools", 5⟩] 1000 (fun _ _ => false)
        [demoFuturePost], 1 ≤ r.final_score) ∧
    (process_posts ⟨7, -2, 5⟩ [⟨"saw", "tools", 5⟩] 1000 (fun _ _ => false)
        [demoFuturePost]).length ≤ (5 : Nat) ∧
    (filter_by_age 1000 24 (filter_processed (fun _ _ => false)
        (filter_duplicates [demoFuturePost])) = [] →
      process_posts ⟨7, -2, 5⟩ [⟨"saw", "tools", 5⟩] 1000 (fun _ _ => false)
        [demoFuturePost] = []) ∧
    (∀ s : Int, ∃ rest,
      ((filter_by_age 1000 24 (filter_processed (fun _ _ => false)
          (filter_duplicates [demoFuturePost]))).map
          (score_post ⟨7, -2, 5⟩ [⟨"saw", "tools", 5⟩] 1000)).filter
            (fun r => decide (r.final_score = s))
        = (process_posts ⟨7, -2, 5⟩ [⟨"saw", "tools", 5⟩] 1000 (fun _ _ => false)
            [demoFuturePost]).filter (fun r => decide (r.final_score = s)) ++ rest) :=
  process_posts_pipeline ⟨7, -2, 5⟩ [⟨"saw", "tools", 5⟩] 1000 (fun _ _ => false)
    [demoFuturePost]

/-! ### Lexicographic comparison lemmas for the SQL row order -/

theorem lexLtB_cons (a b : Char) (as bs : List Char) :
    lexLtB (a :: as) (b :: bs)
      = if a.toNat < b.toNat then true
        else if b.toNat < a.toNat then false
        else lexLtB as bs := rfl

theorem lexLtB_asymm : ∀ (a b : List Char), lexLtB a b = true → lexLtB b a = false := by
  intro a
  induction a with
  | nil =>
    intro b h
    cases b with
    | nil => simp [lexLtB] at h
    | cons y ys => rfl
  | cons x xs ih =>
    intro b h
    cases b with
    | nil => simp [lexLtB] at h
    | cons y ys =>
      rw [lexLtB_cons] at h
      rw [lexLtB_cons]
      by_cases h1 : x.toNat < y.toNat
      · rw [if_neg (by omega), if_pos h1]
      · rw [if_neg h1] at h
        by_cases h2 : y.toNat < x.toNat
        · rw [if_pos h2] at h
          cases h
        · rw [if_neg h2] at h
          rw [if_neg h2, if_neg h1]
          exact ih ys h

theorem lexLtB_eq_codes : ∀ (a b : List Char), lexLtB a b = false → lexLtB b a = false →
    a.map Char.toNat = b.map Char.toNat := by
  intro a
  induction a with
  | nil =>
    intro b h1 _
    cases b with
    | nil => rfl
    | cons y ys => simp [lexLtB] at h1
  | cons x xs ih =>
    intro b h1 h2
    cases b with
    | nil => simp [lexLtB] at h2
    | cons y ys =>
      rw [lexLtB_cons] at h1 h2
      by_cases hxy : x.toNat < y.toNat
      · rw [if_pos hxy] at h1
        cases h1
      · by_cases hyx : y.toNat < x.toNat
        · rw [if_pos hyx] at h2
          cases h2
        · rw [if_neg hxy, if_neg hyx] at h1
          rw [if_neg hyx, if_neg hxy] at h2
          have hx : x.toNat = y.toNat := by omega
          rw [List.map_cons, List.map_cons, hx, ih ys h1 h2]

theorem lexLtB_congr : ∀ (a a2 b b2 : List Char), a.map Char.toNat = a2.map Char.toNat →
    b.map Char.toNat = b2.map Char.toNat → lexLtB a b = lexLtB a2 b2 := by
  intro a
  induction a with
  | nil =>
    intro a2 b b2 ha hb
    cases a2 with
    | cons z zs => simp at ha
    | nil =>
      cases b with
      | nil =>
        cases b2 with
        | nil => rfl
        | cons w ws => simp at hb
      | cons y ys =>
        cases b2 with
        | nil => simp at hb
        | cons w ws => rfl
  | cons x xs ih =>
    intro a2 b b2 ha hb
    cases a2 with
    | nil => simp at ha
    | cons z zs =>
      simp only [List.map_cons, List.cons.injEq] at ha
      obtain ⟨hxz, hxs⟩ := ha
      cases b with
      | nil =>
        cases b2 with
        | nil => rfl
        | cons w ws => simp at hb
      | cons y ys =>
        cases b2 with
        | nil => simp at hb
        | cons w ws =>
          simp only [List.map_cons, List.cons.injEq] at hb
          obtain ⟨hyw, hys⟩ := hb
          rw [lexLtB_cons, lexLtB_cons, hxz, hyw, ih zs ys ws hxs hys]

theorem lexLtB_trans : ∀ (a b c : List Char), lexLtB a b = true → lexLtB b c = true →
    lexLtB a c = true := by
  intro a
  induction a with
  | nil =>
    intro b c h1 h2
    cases b with
    | nil => simp [lexLtB] at h1
    | cons y ys =>
      cases c with
      | nil => simp [lexLtB] at h2
      | cons w ws => rfl
  | cons x xs ih =>
    intro b c h1 h2
    cases b with
    | nil => simp [lexLtB] at h1
    | cons y ys =>
      cases c with
      | nil => simp [lexLtB] at h2
      | cons w ws =>
        rw [lexLtB_cons] at h1 h2 ⊢
        by_cases hxy : x.toNat < y.toNat
        · by_cases hyw : y.toNat < w.toNat
          · rw [if_pos (by omega)]
          · rw [if_neg hyw] at h2
            by_cases hwy : w.toNat < y.toNat
            · rw [if_pos hwy] at h2
              cases h2
            · rw [if_pos (by omega)]
        · rw [if_neg hxy] at h1
          by_cases hyx : y.toNat < x.toNat
          · rw [if_pos hyx] at h1
            cases h1
          · rw [if_neg hyx] at h1
            by_cases hyw : y.toNat < w.toNat
            · rw [if_pos (by omega)]
            · rw [if_neg hyw] at h2
              by_cases hwy : w.toNat < y.toNat
              · rw [if_pos hwy] at h2
                cases h2
              · rw [if_neg hwy] at h2
                rw [if_neg (by omega), if_neg (by omega)]
                exact ih ys ws h1 h2

theorem lexLtB_trichot (a b : List Char) :
    lexLtB a b = true ∨ lexLtB b a = true ∨ a.map Char.toNat = b.map Char.toNat := by
  by_cases h1 : lexLtB a b = true
  · exact Or.inl h1
  · by_cases h2 : lexLtB b a = true
    · exact Or.inr (Or.inl h2)
    · exact Or.inr (Or.inr
        (lexLtB_eq_codes a b (eq_false_of_ne_true h1) (eq_false_of_ne_true h2)))

theorem sqlRowLe_total (a b : Keyword) : sqlRowLe a b = true ∨ sqlRowLe b a = true := by
  unfold sqlRowLe
  by_cases h1 : lexLtB a.category.data b.category.data = true
  · left
    rw [if_pos h1]
  · by_cases h2 : lexLtB b.category.data a.category.data = true
    · right
      rw [if_pos h2]
    · rcases lt_trichotomy b.weight a.weight with hw | hw | hw
      · left
        rw [if_neg h1, if_neg h2, if_pos hw]
      · by_cases ht : lexLtB b.text.data a.text.data = true
        · right
          have hf : lexLtB a.text.data b.text.data = false := lexLtB_asymm _ _ ht
          rw [if_neg h2, if_neg h1, if_neg (by omega : ¬ a.weight < b.weight),
            if_neg (by omega : ¬ b.weight < a.weight), hf]
          rfl
        · left
          have hf : lexLtB b.text.data a.text.data = false := eq_false_of_ne_true ht
          rw [if_neg h1, if_neg h2, if_neg (by omega : ¬ b.weight < a.weight),
            if_neg (by omega : ¬ a.weight < b.weight), hf]
          rfl
      · right
        rw [if_neg h2, if_neg h1, if_pos hw]

theorem sqlRowLe_trans (a b c : Keyword) (h1 : sqlRowLe a b = true) (h2 : sqlRowLe b c = true) :
    sqlRowLe a c = true := by
  unfold sqlRowLe at h1 h2 ⊢
  by_cases hab : lexLtB a.category.data b.category.data = true
  · by_cases hbc : lexLtB b.category.data c.category.data = true
    · rw [if_pos (lexLtB_trans _ _ _ hab hbc)]
    · by_cases hcb : lexLtB c.category.data b.category.data = true
      · rw [if_neg hbc, if_pos hcb] at h2
        cases h2
      · have hcode := lexLtB_eq_codes _ _ (eq_false_of_ne_true hbc) (eq_false_of_ne_true hcb)
        have hac : lexLtB a.category.data c.category.data = true := by
          rw [lexLtB_congr a.category.data a.category.data c.category.data b.category.data
            rfl hcode.symm]
          exact hab
        rw [if_pos hac]
  · by_cases hba : lexLtB b.category.data a.category.data = true
    · rw [if_neg hab, if_pos hba] at h1
      cases h1
    · have hcodeAB := lexLtB_eq_codes _ _ (eq_false_of_ne_true hab) (eq_false_of_ne_true hba)
      by_cases hbc : lexLtB b.category.data c.category.data = true
      · have hac : lexLtB a.category.data c.category.data = true := by
          rw [lexLtB_congr a.category.data b.category.data c.category.data c.category.data
            hcodeAB rfl]
          exact hbc
        rw [if_pos hac]
      · by_cases hcb : lexLtB c.category.data b.category.data = true
        · rw [if_neg hbc, if_pos hcb] at h2
          cases h2
        · have hac : lexLtB a.category.data c.category.data = false := by
            rw [lexLtB_congr a.category.data b.category.data c.category.data c.category.data
              hcodeAB rfl]
            exact eq_false_of_ne_true hbc
          have hca : lexLtB c.category.data a.category.data = false := by
            rw [lexLtB_congr c.category.data c.category.data a.category.data b.category.data
              rfl hcodeAB]
            exact eq_false_of_ne_true hcb
          rw [if_neg hab, if_neg hba] at h1
          rw [if_neg hbc, if_neg hcb] at h2
          rw [if_neg (by simp [hac] : ¬ lexLtB a.category.data c.category.data = true),
            if_neg (by simp [hca] : ¬ lexLtB c.category.data a.category.data = true)]
          by_cases hw1 : b.weight < a.weight
          · by_cases hw2 : c.weight < b.weight
            · rw [if_pos (by omega : c.weight < a.weight)]
            · rw [if_neg hw2] at h2
              by_cases hw2b : b.weight < c.weight
              · rw [if_pos hw2b] at h2
                cases h2
              · rw [if_pos (by omega : c.weight < a.weight)]
          · rw [if_neg hw1] at h1
            by_cases hw1b : a.weight < b.weight
            · rw [if_pos hw1b] at h1
              cases h1
            · rw [if_neg hw1b] at h1
              by_cases hw2 : c.weight < b.weight
              · rw [if_pos (by omega : c.weight < a.weight)]
              · rw [if_neg hw2] at h2
                by_cases hw2b : b.weight < c.weight
                · rw [if_pos hw2b] at h2
                  cases h2
                · rw [if_neg hw2b] at h2
                  rw [if_neg (by omega : ¬ c.weight < a.weight),
                    if_neg (by omega : ¬ a.weight < c.weight)]
                  have ht1 : lexLtB b.text.data a.text.data = false := by
                    cases hcase : lexLtB b.text.data a.text.data
                    · rfl
                    · rw [hcase] at h1
                      exact absurd h1 (by decide)
                  have ht2 : lexLtB c.text.data b.text.data = false := by
                    cases hcase : lexLtB c.text.data b.text.data
                    · rfl
                    · rw [hcase] at h2
                      exact absurd h2 (by decide)
                  have ht3 : lexLtB c.text.data a.text.data = false := by
                    rcases lexLtB_trichot a.text.data b.text.data with hl | hl | hl
                    · by_cases hca2 : lexLtB c.text.data a.text.data = true
                      · have hcbt := lexLtB_trans _ _ _ hca2 hl
                        rw [hcbt] at ht2
                        cases ht2
                      · exact eq_false_of_ne_true hca2
                    · rw [hl] at ht1
                      cases ht1
                    · rw [lexLtB_congr c.text.data c.text.data a.text.data b.text.data rfl hl]
                      exact ht2
                  rw [ht3]
                  rfl

/-! ### Claim C8 -/

/-- C8 counterexample: with stored keywords ("saw", "tools", 10) and
("glue", "adhesive", 5), the full read returns the weight-5 keyword
before the weight-10 keyword — the SQL query orders by category first —
so the result is not ordered by weight descending with text
tie-breaks. -/
theorem get_keywords_order_cex :
    db_get_keywords [⟨"saw", "tools", 10⟩, ⟨"glue", "adhesive", 5⟩] true none
      = [⟨"glue", "adhesive", 5⟩, ⟨"saw", "tools", 10⟩] ∧
    ¬ claimWeightOrder
        (db_get_keywords [⟨"saw", "tools", 10⟩, ⟨"glue", "adhesive", 5⟩] true none) := by
  decide

/-- C8 amended: the full keyword read returns a permutation of the
stored keywords ordered by category ascending, then weight descending,
then keyword text ascending (the `sqlRowLe` row order of the query
`ORDER BY category, score_value DESC, keyword`). -/
theorem get_keywords_order (store : List Keyword) :
    (db_get_keywords store true none).Perm store ∧
    (db_get_keywords store true none).Pairwise (fun a b => sqlRowLe a b = true) := by
  constructor
  · exact List.perm_insertionSort (fun a b => sqlRowLe a b = true) store
  · exact @List.sorted_insertionSort Keyword (fun a b => sqlRowLe a b = true) _
      ⟨sqlRowLe_total⟩ ⟨sqlRowLe_trans⟩ store
